import Mathlib

/-!
# Verification of the Fakeium sandbox against its specification

Shallow embedding of the Fakeium repository (josemmo/fakeium): the `Report`
event store and its query matcher (`src/Report.ts`), the host orchestrator
(`src/Fakeium.ts`: `hook`, `validatePath`, `run`, `dispose`), and the in-guest
bootstrap's `resolvePath` (`src/bootstrap.js`).

JavaScript numbers that only ever flow through strict equality are modelled
as integers; strings are Lean `String`s.
-/

namespace Fakeium

/-! ## Data model: values, locations, events (src/Report.ts) -/

/-- A JavaScript literal as allowed in `Value.literal`:
`string | number | boolean | null | undefined`. -/
inductive JSLit where
  | str (s : String)
  | num (n : Int)
  | bool (b : Bool)
  | null
  | undef
deriving DecidableEq, Repr

/-- The `Value` union of `src/Report.ts`: `{ ref: number }` or
`{ literal: ... }`.  A field set to `none` models the key being absent;
`literal = some .undef` models the key being present with value `undefined`
(which `'literal' in query` distinguishes from absence). -/
structure Value where
  ref : Option Nat := none
  literal : Option JSLit := none
deriving DecidableEq, Repr

/-- Source location attached to every event. -/
structure Location where
  filename : String
  line : Int
  column : Int
deriving DecidableEq, Repr

/-- Discriminant of the `ReportEvent` union. -/
inductive EventType where
  | getEvent
  | setEvent
  | callEvent
deriving DecidableEq, Repr

/-- The `ReportEvent` tagged union: `GetEvent`, `SetEvent`, `CallEvent`. -/
inductive ReportEvent where
  | get (path : String) (value : Value) (location : Location)
  | set (path : String) (value : Value) (location : Location)
  | call (path : String) (arguments : List Value) (returns : Value)
      (isConstructor : Bool) (location : Location)
deriving DecidableEq, Repr

namespace ReportEvent

/-- `event.type` -/
def type : ReportEvent → EventType
  | .get .. => .getEvent
  | .set .. => .setEvent
  | .call .. => .callEvent

/-- `event.path` -/
def path : ReportEvent → String
  | .get p _ _ => p
  | .set p _ _ => p
  | .call p _ _ _ _ => p

/-- `event.location` -/
def location : ReportEvent → Location
  | .get _ _ l => l
  | .set _ _ l => l
  | .call _ _ _ _ l => l

/-- `'value' in event` and `event.value`: only get/set events carry `value`. -/
def valueField : ReportEvent → Option Value
  | .get _ v _ => some v
  | .set _ v _ => some v
  | .call .. => none

/-- `'arguments' in event` and `event.arguments`: only call events carry it. -/
def argsField : ReportEvent → Option (List Value)
  | .call _ args _ _ _ => some args
  | _ => none

/-- `'returns' in event` and `event.returns`: only call events carry it. -/
def returnsField : ReportEvent → Option Value
  | .call _ _ r _ _ => some r
  | _ => none

/-- `'isConstructor' in event`: only call events carry it. -/
def isConstructorField : ReportEvent → Option Bool
  | .call _ _ _ c _ => some c
  | _ => none

end ReportEvent

/-- The `location` part of a query: each subfield optional. -/
structure LocationQuery where
  filename : Option String := none
  line : Option Int := none
  column : Option Int := none
deriving DecidableEq, Repr

/-- A `Query`: a partial event record (`Partial<MappedOmit<ReportEvent,
'location'>> & { location?: Partial<Location> }`).  `none` models an absent
key. -/
structure Query where
  type : Option EventType := none
  path : Option String := none
  location : LocationQuery := {}
  value : Option Value := none
  arguments : Option (List Value) := none
  returns : Option Value := none
  isConstructor : Option Bool := none
deriving DecidableEq, Repr

/-! ## Query matcher (src/Report.ts, `Report.matchesValue` / `Report.findAll`) -/

/-- `Report.matchesValue(query, target)`:

```
if (query.ref !== undefined && query.ref !== target.ref) return false
if (('literal' in query) &&
    (!('literal' in target) || query.literal !== target.literal)) return false
return true
``` -/
def matchesValue (query target : Value) : Bool :=
  if query.ref.isSome ∧ query.ref ≠ target.ref then false
  else if query.literal.isSome ∧ (target.literal.isNone ∨ query.literal ≠ target.literal) then
    false
  else true

/-- The `// Matches type` guard of `Report.findAll` (`continue` = `false`). -/
def typeGuard (query : Query) (event : ReportEvent) : Bool :=
  if query.type.isSome ∧ query.type ≠ some event.type then false else true

/-- The `// Matches path` guard of `Report.findAll`. -/
def pathGuard (query : Query) (event : ReportEvent) : Bool :=
  if query.path.isSome ∧ query.path ≠ some event.path then false else true

/-- The `// Matches location` guards of `Report.findAll`. -/
def locationGuard (query : Query) (event : ReportEvent) : Bool :=
  if query.location.filename.isSome ∧ query.location.filename ≠ some event.location.filename then
    false
  else if query.location.line.isSome ∧ query.location.line ≠ some event.location.line then
    false
  else if query.location.column.isSome ∧ query.location.column ≠ some event.location.column then
    false
  else true

/-- The `// Matches value` guard of `Report.findAll`:
`('value' in query) && query.value && (!('value' in event) || !matchesValue(...))`. -/
def valueGuard (query : Query) (event : ReportEvent) : Bool :=
  match query.value with
  | none => true
  | some qv =>
    match event.valueField with
    | none => false
    | some ev => matchesValue qv ev

/-- The `// Matches arguments` guard of `Report.findAll`: the event must carry
`arguments`; an empty query list additionally requires an empty event list;
otherwise every query argument must match some event argument. -/
def argsGuard (query : Query) (event : ReportEvent) : Bool :=
  match query.arguments with
  | none => true
  | some qargs =>
    match event.argsField with
    | none => false
    | some eargs =>
      if qargs = [] ∧ eargs ≠ [] then false
      else qargs.all fun qa => eargs.any fun ea => matchesValue qa ea

/-- The `// Matches return value` guard of `Report.findAll`. -/
def returnsGuard (query : Query) (event : ReportEvent) : Bool :=
  match query.returns with
  | none => true
  | some qr =>
    match event.returnsField with
    | none => false
    | some er => matchesValue qr er

/-- The `// Matches isConstructor` guard of `Report.findAll`. -/
def isConstructorGuard (query : Query) (event : ReportEvent) : Bool :=
  match query.isConstructor with
  | none => true
  | some qc =>
    match event.isConstructorField with
    | none => false
    | some ec => qc = ec

/-- An event is yielded by `Report.findAll` exactly when no guard hits a
`continue`. -/
def matchesEvent (query : Query) (event : ReportEvent) : Bool :=
  typeGuard query event && pathGuard query event && locationGuard query event &&
    valueGuard query event && argsGuard query event && returnsGuard query event &&
    isConstructorGuard query event

/-- `Report.findAll(query)`: the generator yields, in insertion order, the
stored events that survive every guard. -/
def findAll (query : Query) : List ReportEvent → List ReportEvent
  | [] => []
  | e :: rest =>
    if matchesEvent query e then e :: findAll query rest else findAll query rest

/-- `Report.find(query)`: first yielded event or `null`
(`findAll(query).next().value || null`). -/
def find (query : Query) (events : List ReportEvent) : Option ReportEvent :=
  (findAll query events).head?

/-- `Report.has(query)`: `find(query) !== null`. -/
def hasQuery (query : Query) (events : List ReportEvent) : Bool :=
  (find query events).isSome

/-! ## C1: has / find / findAll semantics -/

theorem findAll_eq_filter (query : Query) (events : List ReportEvent) :
    findAll query events = events.filter (matchesEvent query) := by
  induction events with
  | nil => rfl
  | cons e rest ih =>
    by_cases h : matchesEvent query e = true
    · simp [findAll, List.filter_cons, h, ih]
    · simp [findAll, List.filter_cons, h, ih]

theorem find_eq_find? (query : Query) (events : List ReportEvent) :
    find query events = events.find? (matchesEvent query) := by
  induction events with
  | nil => rfl
  | cons e rest ih =>
    by_cases h : matchesEvent query e = true
    · simp [find, findAll, h, List.find?_cons]
    · simpa [find, findAll, h, List.find?_cons] using ih

/-- C1: for every report state and query, `has` is true iff some stored event
matches; `find` returns the first matching event in insertion order (`none`
when no event matches); and `findAll` yields exactly the matching events in
insertion order. -/
theorem report_query_semantics (events : List ReportEvent) (query : Query) :
    (hasQuery query events = true ↔ ∃ e ∈ events, matchesEvent query e = true) ∧
    find query events = events.find? (matchesEvent query) ∧
    (find query events = none ↔ ∀ e ∈ events, matchesEvent query e = false) ∧
    findAll query events = events.filter (matchesEvent query) := by
  refine ⟨?_, find_eq_find? query events, ?_, findAll_eq_filter query events⟩
  · rw [hasQuery, find_eq_find?, List.find?_isSome]
  · rw [find_eq_find?, List.find?_eq_none]
    constructor
    · intro h e he
      simpa using h e he
    · intro h e he
      simpa using h e he

/-! ## C2: the arguments filter -/

/-- C2: an event survives the arguments filter iff it is a `CallEvent` whose
argument list is empty when the queried list is empty, and every queried
argument is matched by some event argument (set containment, not
positional). -/
theorem args_filter_set_containment (query : Query) (qargs : List Value)
    (event : ReportEvent) (hq : query.arguments = some qargs) :
    argsGuard query event = true ↔
      ∃ p eargs ret ctor loc, event = .call p eargs ret ctor loc ∧
        (qargs = [] → eargs = []) ∧
        ∀ qa ∈ qargs, ∃ ea ∈ eargs, matchesValue qa ea = true := by
  cases event with
  | get p v l =>
    simp [argsGuard, hq, ReportEvent.argsField]
  | set p v l =>
    simp [argsGuard, hq, ReportEvent.argsField]
  | call p eargs ret ctor loc =>
    simp only [argsGuard, hq, ReportEvent.argsField]
    by_cases hempty : qargs = [] ∧ eargs ≠ []
    · rw [if_pos hempty]
      simp only [Bool.false_eq_true, false_iff]
      rintro ⟨p', eargs', ret', ctor', loc', heq, himp, -⟩
      obtain ⟨rfl, rfl, rfl, rfl, rfl⟩ := ReportEvent.call.inj heq
      exact absurd (himp hempty.1) hempty.2
    · rw [if_neg hempty]
      rw [List.all_eq_true]
      constructor
      · intro h
        refine ⟨p, eargs, ret, ctor, loc, rfl, ?_, ?_⟩
        · intro hq0
          by_contra he0
          exact hempty ⟨hq0, he0⟩
        · intro qa hqa
          have := h qa hqa
          rw [List.any_eq_true] at this
          exact this
      · rintro ⟨p', eargs', ret', ctor', loc', heq, _, hall⟩
        obtain ⟨rfl, rfl, rfl, rfl, rfl⟩ := ReportEvent.call.inj heq
        intro qa hqa
        rw [List.any_eq_true]
        exact hall qa hqa

/-- Witness for C2 at a concrete query and event. -/
theorem args_filter_set_containment_witness :
    (Query.mk none none {} none (some [⟨none, some (.num 1)⟩]) none none).arguments
        = some [⟨none, some (.num 1)⟩] ∧
      (argsGuard (Query.mk none none {} none (some [⟨none, some (.num 1)⟩]) none none)
          (.call "f" [⟨none, some (.str "x")⟩, ⟨none, some (.num 1)⟩] ⟨some 2, none⟩ false
            ⟨"file:///t.js", 1, 1⟩) = true ↔
        ∃ p eargs ret ctor loc,
          (ReportEvent.call "f" [⟨none, some (.str "x")⟩, ⟨none, some (.num 1)⟩] ⟨some 2, none⟩
              false ⟨"file:///t.js", 1, 1⟩) = .call p eargs ret ctor loc ∧
            ([(⟨none, some (.num 1)⟩ : Value)] = [] → eargs = []) ∧
            ∀ qa ∈ [(⟨none, some (.num 1)⟩ : Value)], ∃ ea ∈ eargs, matchesValue qa ea = true) :=
  ⟨rfl, args_filter_set_containment _ _ _ rfl⟩

/-! ## C3: matchesValue semantics -/

/-- C3: `matchesValue q t` holds iff every `ref` constraint of `q` is met by
`t` and every present `literal` constraint of `q` is met by a present,
strictly-equal `literal` of `t`; in particular a query literal `undefined`
does not match a target literal `null` (nor vice versa), and a query with
neither constraint matches every target. -/
theorem matchesValue_spec (q t : Value) :
    (matchesValue q t = true ↔
      (∀ r, q.ref = some r → t.ref = some r) ∧
      (∀ l, q.literal = some l → t.literal = some l)) ∧
    matchesValue ⟨none, some .undef⟩ ⟨none, some .null⟩ = false ∧
    matchesValue ⟨none, some .null⟩ ⟨none, some .undef⟩ = false ∧
    (∀ t', matchesValue ⟨none, none⟩ t' = true) := by
  refine ⟨?_, by decide, by decide, fun t' => by simp [matchesValue]⟩
  obtain ⟨qr, ql⟩ := q
  obtain ⟨tr, tl⟩ := t
  simp only [matchesValue]
  split_ifs with h1 h2
  · simp only [Bool.false_eq_true, false_iff]
    rintro ⟨hr, -⟩
    obtain ⟨r, hqr⟩ := Option.isSome_iff_exists.mp h1.1
    exact h1.2 (hqr.trans (hr r hqr).symm)
  · simp only [Bool.false_eq_true, false_iff]
    rintro ⟨-, hl⟩
    obtain ⟨l, hql⟩ := Option.isSome_iff_exists.mp h2.1
    rcases h2.2 with h | h
    · rw [hl l hql] at h
      simp at h
    · exact h (hql.trans (hl l hql).symm)
  · simp only [true_iff]
    refine ⟨?_, ?_⟩
    · intro r hqr
      rcases not_and_or.mp h1 with h | h
      · rw [hqr] at h
        simp at h
      · rw [not_not] at h
        rw [← h, hqr]
    · intro l hql
      rcases not_and_or.mp h2 with h | h
      · rw [hql] at h
        simp at h
      · rw [not_or, not_not] at h
        rw [← h.2, hql]

/-! ## Host orchestrator state (src/Fakeium.ts) -/

/-- The host-side mutable state of a `Fakeium` instance that the claims are
about: the `nextValueId` counter, the report, the module caches
(`pathToModule` / `moduleToPath`, modelled as one association list of URL
hrefs to abstract compiled-module handles) and the isolate (an abstract
handle, `none` when disposed). -/
structure FakeiumState where
  nextValueId : Nat := 1
  report : List ReportEvent := []
  moduleCache : List (String × Nat) := []
  isolate : Option Nat := none
deriving DecidableEq, Repr

/-- The event sink bound into the bootstrap by `setupContext`:
`(event, nextValueId) => { this.report.add(event); this.nextValueId = nextValueId }`. -/
def eventSink (s : FakeiumState) (event : ReportEvent) (guestNextValueId : Nat) :
    FakeiumState :=
  { s with report := s.report ++ [event], nextValueId := guestNextValueId }

/-- One guest evaluation as seen by the host: the bootstrap is seeded with the
host's current `nextValueId`; each emitted event allocates `em.2` fresh ids
(each a `nextValueId++` in the guest's `toEventValue`) and reports the updated
counter back through the event sink. -/
def processEmissions (s : FakeiumState) (emissions : List (ReportEvent × Nat)) :
    FakeiumState :=
  emissions.foldl (fun st em => eventSink st em.1 (st.nextValueId + em.2)) s

/-- `Report.clear()` (`this.events.length = 0`), reachable through
`getReport()`: clears stored events and nothing else. -/
def reportClear (s : FakeiumState) : FakeiumState :=
  { s with report := [] }

/-- `Fakeium.dispose(clearReport = true)`: always clears the module caches and
destroys the isolate; only when `clearReport` is true does it also clear the
report and reset `nextValueId` to 1.  The hard-timeout watchdog calls
`this.dispose(false)`. -/
def dispose (clearReport : Bool := true) (s : FakeiumState) : FakeiumState :=
  let s1 := { s with moduleCache := [], isolate := none }
  if clearReport then { s1 with report := [], nextValueId := 1 } else s1

/-! ## C5: nextValueId lifecycle -/

/-- C5: `nextValueId` never decreases across a run's emissions nor across
report clears; `dispose true` (the default) resets it to 1 and clears the
report; `dispose false` (including the watchdog's forced dispose) leaves both
the report and the counter untouched while still clearing the module caches
and destroying the isolate. -/
theorem nextValueId_lifecycle :
    (∀ s emissions, s.nextValueId ≤ (processEmissions s emissions).nextValueId) ∧
    (∀ s, (reportClear s).nextValueId = s.nextValueId) ∧
    (∀ s, dispose true s =
      { nextValueId := 1, report := [], moduleCache := [], isolate := none }) ∧
    (∀ s, (dispose false s).report = s.report ∧
      (dispose false s).nextValueId = s.nextValueId ∧
      (dispose false s).moduleCache = [] ∧ (dispose false s).isolate = none) := by
  refine ⟨?_, fun s => rfl, fun s => rfl, fun s => ⟨rfl, rfl, rfl, rfl⟩⟩
  intro s emissions
  induction emissions generalizing s with
  | nil => simp [processEmissions]
  | cons em rest ih =>
    have step : processEmissions s (em :: rest) =
        processEmissions (eventSink s em.1 (s.nextValueId + em.2)) rest := rfl
    rw [step]
    calc s.nextValueId ≤ (eventSink s em.1 (s.nextValueId + em.2)).nextValueId := by
          simp [eventSink]
      _ ≤ _ := ih _

/-! ## C4: run error classification (src/Fakeium.ts, `Fakeium.run`) -/

/-- How a `run` call settles. -/
inductive RunResult where
  | success
  | sourceNotFound
  | parsing
  | memoryLimit
  | timeout
  | execution (causeMessage : String)
deriving DecidableEq, Repr

/-- The inputs that decide `run`'s control flow. -/
structure RunInput where
  /-- `run` was given explicit source code for the entry specifier -/
  sourceOverride : Bool
  /-- the resolver returns non-`null` for the entry source's URL -/
  resolverFindsSource : Bool
  /-- compiling the source throws a `SyntaxError` -/
  compileSyntaxError : Bool
  /-- the hard-timeout watchdog fires while evaluation is pending -/
  watchdogFires : Bool
  /-- `some msg` when evaluation rejects with an `Error` carrying message `msg` -/
  evalError : Option String
deriving DecidableEq, Repr

/-- Result plus the effects of the `finally` block. -/
structure RunOutcome where
  result : RunResult
  watchdogCancelled : Bool
  contextReleased : Bool
deriving DecidableEq, Repr

/-- Engine sentinel recognised in `Fakeium.run`'s catch block. -/
def timedOutMessage : String := "Script execution timed out."

/-- Engine sentinel recognised in `Fakeium.run`'s catch block. -/
def disposedMessage : String := "Isolate was disposed during execution"

/-- Engine sentinel recognised in `Fakeium.run`'s catch block. -/
def memoryLimitMessage : String := "Isolate was disposed during execution due to memory limit"

/-- Control-flow skeleton of `Fakeium.run`: source resolution and compilation
happen before the watchdog is registered; the catch block classifies the
evaluation error by exact message; the `finally` block cancels the watchdog
and releases the context; a pending `didTimeout` (from the watchdog or from
the soft-timeout sentinel) is thrown as `TimeoutError` last. -/
def runClassify (i : RunInput) : RunOutcome :=
  if ¬i.sourceOverride ∧ ¬i.resolverFindsSource then
    ⟨.sourceNotFound, false, false⟩
  else if i.compileSyntaxError then
    ⟨.parsing, false, false⟩
  else
    let didTimeout := i.watchdogFires ||
      (match i.evalError with
       | some msg => msg = timedOutMessage
       | none => false)
    let caught : Option RunResult :=
      match i.evalError with
      | none => none
      | some msg =>
        if msg = timedOutMessage then none
        else if msg = disposedMessage then none
        else if msg = memoryLimitMessage then some .memoryLimit
        else some (.execution msg)
    match caught with
    | some r => ⟨r, true, true⟩
    | none => if didTimeout then ⟨.timeout, true, true⟩ else ⟨.success, true, true⟩

/-- Counterexample for C4: when the watchdog has fired but evaluation rejects
with an ordinary error message (here `"boom"`), `run` rejects with
`Execution`, not with `Timeout` as the claim's watchdog clause requires. -/
theorem run_watchdog_execution_counterexample :
    (runClassify ⟨true, true, false, true, some "boom"⟩).result = .execution "boom" ∧
    (runClassify ⟨true, true, false, true, some "boom"⟩).result ≠ .timeout := by
  constructor <;> simp [runClassify, timedOutMessage, disposedMessage, memoryLimitMessage]

/-- C4 (amended): `run` rejects with `SourceNotFound` when the resolver
returns null and there is no source override; with `Parsing` on a
compile-time `SyntaxError`; with `MemoryLimit` on the memory-limit sentinel;
with `Timeout` - after cancelling the watchdog and releasing the context -
on the soft-timeout sentinel, or when the watchdog fired and evaluation
either succeeded or failed with exactly the disposal sentinel; it resolves
when the disposal sentinel arrives without the watchdog having fired; and
any other evaluation `Error` is wrapped as `Execution` with the original
message, even when the watchdog fired. -/
theorem run_error_classification (i : RunInput) :
    (¬i.sourceOverride ∧ ¬i.resolverFindsSource →
      runClassify i = ⟨.sourceNotFound, false, false⟩) ∧
    ((i.sourceOverride ∨ i.resolverFindsSource) → i.compileSyntaxError →
      runClassify i = ⟨.parsing, false, false⟩) ∧
    ((i.sourceOverride ∨ i.resolverFindsSource) → ¬i.compileSyntaxError →
      (i.evalError = some memoryLimitMessage →
        runClassify i = ⟨.memoryLimit, true, true⟩) ∧
      ((i.evalError = some timedOutMessage ∨
          (i.watchdogFires ∧ (i.evalError = none ∨ i.evalError = some disposedMessage))) →
        runClassify i = ⟨.timeout, true, true⟩) ∧
      (i.evalError = some disposedMessage → ¬i.watchdogFires →
        runClassify i = ⟨.success, true, true⟩) ∧
      (i.evalError = none → ¬i.watchdogFires →
        runClassify i = ⟨.success, true, true⟩) ∧
      (∀ msg, i.evalError = some msg → msg ≠ timedOutMessage → msg ≠ disposedMessage →
        msg ≠ memoryLimitMessage → runClassify i = ⟨.execution msg, true, true⟩)) := by
  obtain ⟨so, rf, cse, wf, ee⟩ := i
  refine ⟨?_, ?_, ?_⟩
  · rintro ⟨hso, hrf⟩
    dsimp only at hso hrf
    simp only [Bool.not_eq_true] at hso hrf
    simp [runClassify, hso, hrf]
  · intro hsrc hcse
    dsimp only at hsrc hcse
    have hcond : ¬(so = false ∧ rf = false) := by
      rintro ⟨h1, h2⟩
      rcases hsrc with h | h
      · rw [h] at h1
        cases h1
      · rw [h] at h2
        cases h2
    simp [runClassify, hcond, hcse]
  · intro hsrc hcse
    dsimp only at hsrc hcse
    simp only [Bool.not_eq_true] at hcse
    have hcond : ¬(so = false ∧ rf = false) := by
      rintro ⟨h1, h2⟩
      rcases hsrc with h | h
      · rw [h] at h1
        cases h1
      · rw [h] at h2
        cases h2
    refine ⟨?_, ?_, ?_, ?_, ?_⟩
    · rintro rfl
      simp [runClassify, hcond, hcse, memoryLimitMessage, timedOutMessage, disposedMessage]
    · rintro (rfl | ⟨hwf, (rfl | rfl)⟩)
      · simp [runClassify, hcond, hcse, timedOutMessage]
      · dsimp only at hwf
        simp [runClassify, hcond, hcse, hwf]
      · dsimp only at hwf
        simp [runClassify, hcond, hcse, hwf, timedOutMessage, disposedMessage,
          memoryLimitMessage]
    · rintro rfl hwf
      dsimp only at hwf
      simp only [Bool.not_eq_true] at hwf
      simp [runClassify, hcond, hcse, hwf, timedOutMessage, disposedMessage]
    · rintro rfl hwf
      dsimp only at hwf
      simp only [Bool.not_eq_true] at hwf
      simp [runClassify, hcond, hcse, hwf]
    · rintro msg rfl h1 h2 h3
      simp [runClassify, hcond, hcse, h1, h2, h3]

/-! ## PATH_PATTERN (src/Fakeium.ts)

`const PATH_PATTERN = /^[a-z_$][a-z0-9_$]*(\.[a-z_$][a-z0-9_$]*|\[".+?"\]|\['.+?'\]|\[\d+\])*$/i`

The regex is embedded as a backtracking matcher over the character list: each
function below recognises the rest of the input against one position in the
pattern.  Laziness of `.+?` does not change the recognised language, so the
matcher explores both closing and continuing a quoted segment (the `||` in
`strTail`). -/

/-- `[a-z_$]` under the `i` flag: ASCII letter, underscore or dollar. -/
def identStart (c : Char) : Bool :=
  c.isAlpha || c = '_' || c = '$'

/-- `[a-z0-9_$]` under the `i` flag. -/
def identChar (c : Char) : Bool :=
  c.isAlphanum || c = '_' || c = '$'

/-- JS regex `.` without the `s` flag: any character except a line
terminator. -/
def dotChar (c : Char) : Bool :=
  !(c = '\n' || c = '\r' || c = ' ' || c = ' ')

mutual

/-- `[a-z0-9_$]*` of the leading identifier, then the segment list.  When the
head is not an identifier character this is the segment list itself (`.` and
`[` are not identifier characters). -/
def identRest : List Char → Bool
  | [] => true
  | c :: rest =>
    if identChar c then identRest rest
    else if c = '.' then dotIdent rest
    else if c = '[' then bracketRest rest
    else false

/-- `(\.[a-z_$][a-z0-9_$]*|\[".+?"\]|\['.+?'\]|\[\d+\])*$` -/
def segTail : List Char → Bool
  | [] => true
  | c :: rest =>
    if c = '.' then dotIdent rest
    else if c = '[' then bracketRest rest
    else false

/-- After a `.`: `[a-z_$][a-z0-9_$]*` then the segment list. -/
def dotIdent : List Char → Bool
  | [] => false
  | c :: rest => identStart c && identRest rest

/-- After a `[`: one of `".+?"\]`, `'.+?'\]` or `\d+\]`, then the segment
list. -/
def bracketRest : List Char → Bool
  | [] => false
  | c :: rest =>
    if c = '"' then strRest '"' rest
    else if c = '\'' then strRest '\'' rest
    else c.isDigit && digitsRest rest

/-- `.+?<q>\]` then the segment list: at least one content character. -/
def strRest (q : Char) : List Char → Bool
  | [] => false
  | c :: rest => dotChar c && strTail q rest

/-- Having consumed at least one content character: close on `<q>]`, or
consume one more content character (both options are explored). -/
def strTail (q : Char) : List Char → Bool
  | [] => false
  | c :: rest => (c = q && closeBracket rest) || (dotChar c && strTail q rest)

/-- `\]` then the segment list. -/
def closeBracket : List Char → Bool
  | [] => false
  | c :: rest => c = ']' && segTail rest

/-- `\d*\]` then the segment list (the first digit was consumed by
`bracketRest`). -/
def digitsRest : List Char → Bool
  | [] => false
  | c :: rest => (c = ']' && segTail rest) || (c.isDigit && digitsRest rest)

end

/-- The anchored pattern on a character list: `[a-z_$]` then the rest. -/
def pathPatternChars : List Char → Bool
  | [] => false
  | c :: rest => identStart c && identRest rest

/-- `PATH_PATTERN.test(path)`. -/
def pathPatternTest (path : String) : Bool :=
  pathPatternChars path.data

/-- Errors thrown by `Fakeium.hook`. -/
inductive HookErrorKind where
  | invalidPath
  | invalidValue
deriving DecidableEq, Repr

/-- `Fakeium.validatePath`: throws `InvalidPathError` exactly when
`PATH_PATTERN` does not match. -/
def validatePath (path : String) : Except HookErrorKind Unit :=
  if pathPatternTest path then .ok () else .error .invalidPath

/-! ## Hook registry (src/hooks.ts, `Fakeium.hook` / constructor) -/

/-- A JavaScript value passed to `hook` to be copied into the sandbox
(objects are modelled with literal-valued fields, which covers every default
hook). -/
inductive JSVal where
  | undef
  | null
  | num (n : Int)
  | str (s : String)
  | bool (b : Bool)
  | obj (fields : List (String × JSLit))
  /-- a `Symbol`: not structured-cloneable -/
  | sym (description : String)
deriving DecidableEq, Repr

/-- Whether `new ivm.ExternalCopy(value)` succeeds (structured clone):
symbols are not transferable; literals and literal-valued objects are. -/
def cloneable : JSVal → Bool
  | .sym _ => false
  | _ => true

/-- The `value` argument of `Fakeium.hook`, classified the way the code does:
an `instanceof Reference`, a `typeof value === 'function'`, or any other
value (handed to `ExternalCopy`). -/
inductive HookInput where
  | reference (path : String)
  | func
  | val (v : JSVal)
deriving DecidableEq, Repr

/-- A stored hook (src/hooks.ts `Hook`): `isWritable` plus exactly one of
`newPath`, `function` or `value` (the redundant `path` field of the record is
the table key). -/
inductive HookEntry where
  | alias (newPath : String) (isWritable : Bool)
  | hostFn (isWritable : Bool)
  | copy (value : JSVal) (isWritable : Bool)
deriving DecidableEq, Repr

/-- `Map.prototype.set` on the hook table: updates an existing key in place,
appends a new key. -/
def hooksSet : List (String × HookEntry) → String → HookEntry → List (String × HookEntry)
  | [], k, v => [(k, v)]
  | (k', v') :: rest, k, v =>
    if k' = k then (k, v) :: rest else (k', v') :: hooksSet rest k v

/-- `Map.prototype.get` on the hook table. -/
def hooksGet : List (String × HookEntry) → String → Option HookEntry
  | [], _ => none
  | (k', v') :: rest, k => if k' = k then some v' else hooksGet rest k

/-- The entry `Fakeium.hook` stores for a given value and writability. -/
def classifyHook : HookInput → Bool → HookEntry
  | .reference p, w => .alias p w
  | .func, w => .hostFn w
  | .val v, w => .copy v w

/-- `Fakeium.hook(path, value, isWritable = true)`: validates `path`, then a
`Reference`'s target path, then classifies and stores the value;
`ExternalCopy` failure is rethrown as `InvalidValueError`.  Every throw
happens before `this.hooks.set`, so the table component of the result is the
input table on every error path. -/
def hookCall (hooks : List (String × HookEntry)) (path : String) (value : HookInput)
    (isWritable : Bool := true) : Option HookErrorKind × List (String × HookEntry) :=
  if ¬ pathPatternTest path then (some .invalidPath, hooks)
  else
    match value with
    | .reference newPath =>
      if ¬ pathPatternTest newPath then (some .invalidPath, hooks)
      else (none, hooksSet hooks path (.alias newPath isWritable))
    | .func => (none, hooksSet hooks path (.hostFn isWritable))
    | .val v =>
      if cloneable v then (none, hooksSet hooks path (.copy v isWritable))
      else (some .invalidValue, hooks)

/-- `document` default hook value `{ nodeType: 9, readyState: 'complete' }`. -/
def documentValue : JSVal :=
  .obj [("nodeType", .num 9), ("readyState", .str "complete")]

/-- The sequence of `this.hook(...)` calls in the `Fakeium` constructor, in
source order. -/
def defaultHookCalls : List (String × HookInput) :=
  [("frames", .reference "globalThis"), ("global", .reference "globalThis"),
   ("parent", .reference "globalThis"), ("self", .reference "globalThis"),
   ("window", .reference "globalThis"),
   ("document", .val documentValue),
   ("browser", .val (.obj [])), ("chrome", .reference "browser"),
   ("define", .val .undef), ("exports", .val .undef),
   ("module", .val .undef), ("require", .val .undef)]

/-- Apply a sequence of `hook` calls (default writability), stopping at the
first throw as the constructor would. -/
def runHookCalls : List (String × HookInput) → List (String × HookEntry) →
    Option HookErrorKind × List (String × HookEntry)
  | [], tbl => (none, tbl)
  | (p, v) :: rest, tbl =>
    match hookCall tbl p v true with
    | (some e, tbl') => (some e, tbl')
    | (none, tbl') => runHookCalls rest tbl'

/-- The hook table right after the `Fakeium` constructor returns. -/
def constructorHooks : Option HookErrorKind × List (String × HookEntry) :=
  runHookCalls defaultHookCalls []

/-! ## C6: default hook set -/

/-- C6: the constructor installs exactly the default hook set, in source
order and without any throw; a successful later `hook` call stores its
classified entry with `Map.set`, and `Map.set` at an existing path overwrites
that entry. -/
theorem constructor_default_hooks :
    constructorHooks =
      (none,
       [("frames", .alias "globalThis" true), ("global", .alias "globalThis" true),
        ("parent", .alias "globalThis" true), ("self", .alias "globalThis" true),
        ("window", .alias "globalThis" true),
        ("document", .copy documentValue true),
        ("browser", .copy (.obj []) true), ("chrome", .alias "browser" true),
        ("define", .copy .undef true), ("exports", .copy .undef true),
        ("module", .copy .undef true), ("require", .copy .undef true)]) ∧
    (∀ tbl path value isWritable, (hookCall tbl path value isWritable).1 = none →
      (hookCall tbl path value isWritable).2 =
        hooksSet tbl path (classifyHook value isWritable)) ∧
    (∀ tbl path entry, hooksGet (hooksSet tbl path entry) path = some entry) := by
  refine ⟨by decide, ?_, ?_⟩
  · intro tbl path value isWritable h
    cases value with
    | reference newPath =>
      by_cases hp : pathPatternTest path = true
      · by_cases hnp : pathPatternTest newPath = true
        · simp [hookCall, hp, hnp, classifyHook]
        · simp [hookCall, hp, hnp] at h
      · simp [hookCall, hp] at h
    | func =>
      by_cases hp : pathPatternTest path = true
      · simp [hookCall, hp, classifyHook]
      · simp [hookCall, hp] at h
    | val v =>
      by_cases hp : pathPatternTest path = true
      · by_cases hc : cloneable v = true
        · simp [hookCall, hp, hc, classifyHook]
        · simp [hookCall, hp, hc] at h
      · simp [hookCall, hp] at h
  · intro tbl path entry
    induction tbl with
    | nil => simp [hooksSet, hooksGet]
    | cons kv rest ih =>
      obtain ⟨k', v'⟩ := kv
      by_cases hk : k' = path
      · simp [hooksSet, hooksGet, hk]
      · simp [hooksSet, hooksGet, hk, ih]

/-! ## C10: hook is atomic on failure -/

/-- C10: whenever `hook` throws (`InvalidPath` for a malformed path or
malformed Reference target, `InvalidValue` for a non-cloneable value), the
hook table is left exactly as it was. -/
theorem hook_atomic_on_failure (hooks : List (String × HookEntry)) (path : String)
    (value : HookInput) (isWritable : Bool) (e : HookErrorKind)
    (h : (hookCall hooks path value isWritable).1 = some e) :
    (hookCall hooks path value isWritable).2 = hooks := by
  cases value with
  | reference newPath =>
    by_cases hp : pathPatternTest path = true
    · by_cases hnp : pathPatternTest newPath = true
      · simp [hookCall, hp, hnp] at h
      · simp [hookCall, hp, hnp]
    · simp [hookCall, hp]
  | func =>
    by_cases hp : pathPatternTest path = true
    · simp [hookCall, hp] at h
    · simp [hookCall, hp]
  | val v =>
    by_cases hp : pathPatternTest path = true
    · by_cases hc : cloneable v = true
      · simp [hookCall, hp, hc] at h
      · simp [hookCall, hp, hc]
    · simp [hookCall, hp]

/-- Witness for C10: hooking a `Symbol` over an existing hook throws
`InvalidValue` and preserves the pre-existing entry. -/
theorem hook_atomic_on_failure_witness :
    (hookCall [("a", .copy .undef true)] "a" (.val (.sym "test")) true).1 =
        some .invalidValue ∧
      (hookCall [("a", .copy .undef true)] "a" (.val (.sym "test")) true).2 =
        [("a", .copy .undef true)] :=
  ⟨by decide, hook_atomic_on_failure _ _ _ _ .invalidValue (by decide)⟩

/-! ## resolvePath (src/bootstrap.js)

`resolvePath` tests `!isNaN(property)` (JS `ToNumber` on the string is not
NaN) and `SIMPLE_PROPERTY_PATTERN = /^[a-z_#$][a-z0-9_#$]*$/i`, and quotes
other properties with `JSON.stringify`. -/

/-- ECMAScript `StrWhiteSpaceChar`: WhiteSpace and LineTerminator code
points, trimmed by `ToNumber` on strings. -/
def jsWhitespace (c : Char) : Bool :=
  [9, 10, 11, 12, 13, 0x20, 0xA0, 0x1680, 0x2000, 0x2001, 0x2002, 0x2003, 0x2004, 0x2005,
    0x2006, 0x2007, 0x2008, 0x2009, 0x200A, 0x2028, 0x2029, 0x202F, 0x205F, 0x3000,
    0xFEFF].contains c.toNat

/-- Hexadecimal digit. -/
def hexDigit (c : Char) : Bool :=
  c.isDigit || ('a' ≤ c ∧ c ≤ 'f') || ('A' ≤ c ∧ c ≤ 'F')

/-- Optional `ExponentPart`: empty, or `[eE] [+-]? DecimalDigits`. -/
def jsExpOpt : List Char → Bool
  | [] => true
  | e :: rest =>
    (e = 'e' || e = 'E') &&
      (match rest with
       | '+' :: ds => !ds.isEmpty && ds.all Char.isDigit
       | '-' :: ds => !ds.isEmpty && ds.all Char.isDigit
       | ds => !ds.isEmpty && ds.all Char.isDigit)

/-- `StrUnsignedDecimalLiteral`: `Infinity`, `Digits . Digits? Exp?`,
`. Digits Exp?` or `Digits Exp?`. -/
def jsUnsignedDec (l : List Char) : Bool :=
  if l = "Infinity".data then true
  else
    let intPart := l.takeWhile Char.isDigit
    let rest := l.dropWhile Char.isDigit
    if intPart.isEmpty then
      match rest with
      | '.' :: rest2 =>
        !(rest2.takeWhile Char.isDigit).isEmpty && jsExpOpt (rest2.dropWhile Char.isDigit)
      | _ => false
    else
      match rest with
      | [] => true
      | '.' :: rest2 => jsExpOpt (rest2.dropWhile Char.isDigit)
      | _ => jsExpOpt rest

/-- `StrDecimalLiteral`: optional sign then `StrUnsignedDecimalLiteral`. -/
def jsSignedDec : List Char → Bool
  | '+' :: rest => jsUnsignedDec rest
  | '-' :: rest => jsUnsignedDec rest
  | l => jsUnsignedDec l

/-- `NonDecimalIntegerLiteral`: `0x`/`0X`, `0o`/`0O`, `0b`/`0B` radix
literals (no sign allowed). -/
def jsNonDecimal : List Char → Bool
  | '0' :: x :: rest =>
    if x = 'x' ∨ x = 'X' then !rest.isEmpty && rest.all hexDigit
    else if x = 'o' ∨ x = 'O' then !rest.isEmpty && rest.all fun c => '0' ≤ c ∧ c ≤ '7'
    else if x = 'b' ∨ x = 'B' then !rest.isEmpty && rest.all fun c => c = '0' ∨ c = '1'
    else false
  | _ => false

/-- `!isNaN(s)` for a JS string `s`: `ToNumber(s)` is not NaN.  Whitespace is
trimmed; the empty remainder converts to `0`; otherwise the remainder must be
a `StrNumericLiteral`. -/
def jsIsNumericString (s : String) : Bool :=
  let t := (s.data.dropWhile jsWhitespace).reverse.dropWhile jsWhitespace |>.reverse
  t.isEmpty || jsSignedDec t || jsNonDecimal t

/-- `/^[a-z0-9_#$]/i` on one character (the tail class of
`SIMPLE_PROPERTY_PATTERN`). -/
def simplePropChar (c : Char) : Bool :=
  c.isAlphanum || c = '_' || c = '#' || c = '$'

/-- `SIMPLE_PROPERTY_PATTERN` on a character list. -/
def simpleProperty : List Char → Bool
  | [] => false
  | c :: rest => (c.isAlpha || c = '_' || c = '#' || c = '$') && rest.all simplePropChar

/-- `SIMPLE_PROPERTY_PATTERN.test(s)` for `/^[a-z_#$][a-z0-9_#$]*$/i`. -/
def simplePropertyTest (s : String) : Bool :=
  simpleProperty s.data

/-- Lowercase hexadecimal digit for `\uNNNN` escapes. -/
def hexDigitChar (n : Nat) : Char :=
  if n < 10 then Char.ofNat ('0'.toNat + n) else Char.ofNat ('a'.toNat + n - 10)

/-- `JSON.stringify` escaping of one character. -/
def jsonEscapeChar (c : Char) : List Char :=
  if c = '"' then ['\\', '"']
  else if c = '\\' then ['\\', '\\']
  else if c = '\x08' then ['\\', 'b']
  else if c = '\x0c' then ['\\', 'f']
  else if c = '\n' then ['\\', 'n']
  else if c = '\r' then ['\\', 'r']
  else if c = '\t' then ['\\', 't']
  else if c.toNat < 0x20 then
    ['\\', 'u', '0', '0', hexDigitChar (c.toNat / 16), hexDigitChar (c.toNat % 16)]
  else [c]

/-- `JSON.stringify(s)` for a string `s`. -/
def jsonQuote (s : String) : String :=
  ⟨'"' :: (s.data.map jsonEscapeChar).flatten ++ ['"']⟩

/-- `startsWith('[')` on a character list. -/
def startsBracketChars : List Char → Bool
  | c :: _ => c = '['
  | [] => false

/-- `property.startsWith('[')`. -/
def startsBracket (s : String) : Bool :=
  startsBracketChars s.data

/-- `resolvePath(parentPath, property)` from src/bootstrap.js:

```
if (property === '()') {
    return parentPath.endsWith('()') ? parentPath : `${parentPath}()`
}
if (!isNaN(property)) {
    property = `[${property}]`
} else if (!SIMPLE_PROPERTY_PATTERN.test(property)) {
    property = `[${JSON.stringify(property)}]`
}
if (parentPath === 'globalThis') {
    return property
}
return `${parentPath}${property.startsWith('[') ? '' : '.'}${property}`
``` -/
def resolvePath (parentPath property : String) : String :=
  if property = "()" then
    if parentPath.endsWith "()" then parentPath else parentPath ++ "()"
  else
    let property :=
      if jsIsNumericString property then "[" ++ property ++ "]"
      else if ¬ simplePropertyTest property then "[" ++ jsonQuote property ++ "]"
      else property
    if parentPath = "globalThis" then property
    else parentPath ++ (if startsBracket property then "" else ".") ++ property

/-! ## C8: resolvePath case analysis -/

/-- Counterexample for C8: for a numeric property under the root parent
`'globalThis'`, `resolvePath` returns the bracket segment alone, not
`parentPath` followed by it as the claim's numeric clause states. -/
theorem resolvePath_globalThis_numeric_counterexample :
    resolvePath "globalThis" "0" = "[0]" ∧
      resolvePath "globalThis" "0" ≠ "globalThis" ++ "[0]" := by
  constructor <;> decide

/-- C8 (amended): `'()'` is appended unless already present (idempotent); a
numeric property becomes `[n]`, a simple-identifier property becomes
`.name`, and any other property becomes the JSON-quoted key in brackets -
in each of the three cases the segment is returned alone, without the
leading parent or dot, when the parent path is `'globalThis'`. -/
theorem resolvePath_cases (P p : String) :
    (p = "()" →
      resolvePath P p = if P.endsWith "()" then P else P ++ "()") ∧
    (p ≠ "()" → jsIsNumericString p = true →
      resolvePath P p =
        if P = "globalThis" then "[" ++ p ++ "]" else P ++ ("[" ++ p ++ "]")) ∧
    (p ≠ "()" → jsIsNumericString p = false → simplePropertyTest p = true →
      resolvePath P p = if P = "globalThis" then p else P ++ "." ++ p) ∧
    (p ≠ "()" → jsIsNumericString p = false → simplePropertyTest p = false →
      resolvePath P p =
        if P = "globalThis" then "[" ++ jsonQuote p ++ "]"
        else P ++ ("[" ++ jsonQuote p ++ "]")) := by
  have hb : ∀ x : String, startsBracket ("[" ++ x ++ "]") = true := fun x => rfl
  have hsbChars : ∀ l : List Char, simpleProperty l = true → startsBracketChars l = false := by
    intro l hl
    cases l with
    | nil => simp [simpleProperty] at hl
    | cons c rest =>
      simp only [simpleProperty, Bool.and_eq_true] at hl
      by_cases hcb : c = '['
      · rw [hcb] at hl
        exact absurd hl.1 (by decide)
      · simp [startsBracketChars, hcb]
  have hsb : ∀ x : String, simplePropertyTest x = true → startsBracket x = false :=
    fun x hx => hsbChars x.data hx
  refine ⟨?_, ?_, ?_, ?_⟩
  · rintro rfl
    simp [resolvePath]
  · intro hne hnum
    unfold resolvePath
    rw [if_neg hne]
    by_cases hP : P = "globalThis"
    · simp [hnum, hP]
    · simp [hnum, hP, hb p, String.append_empty]
  · intro hne hnum hsimple
    unfold resolvePath
    rw [if_neg hne]
    by_cases hP : P = "globalThis"
    · simp [hnum, hsimple, hP]
    · simp [hnum, hsimple, hP, hsb p hsimple]
  · intro hne hnum hsimple
    unfold resolvePath
    rw [if_neg hne]
    by_cases hP : P = "globalThis"
    · simp [hnum, hsimple, hP]
    · simp [hnum, hsimple, hP, hb (jsonQuote p), String.append_empty]

/-! ## C9: getStats (modelled from the spec)

`Fakeium.getStats` itself is not among the staged sources - only its tests
(src/tests/Fakeium.spec.ts) and the spec describe it - so the stats facade is
modelled from the spec's words. -/

/-- The `FakeiumStats` record returned by `getStats` (field set from the
tests; times in nanoseconds, sizes in bytes). -/
structure FakeiumStats where
  cpuTime : Nat := 0
  wallTime : Nat := 0
  totalHeapSize : Nat := 0
  totalHeapSizeExecutable : Nat := 0
  totalPhysicalSize : Nat := 0
  usedHeapSize : Nat := 0
  mallocedMemory : Nat := 0
  peakMallocedMemory : Nat := 0
  externallyAllocatedSize : Nat := 0
deriving DecidableEq, Repr

/-- Fieldwise accumulation of engine counters. -/
def addStats (a b : FakeiumStats) : FakeiumStats :=
  ⟨a.cpuTime + b.cpuTime, a.wallTime + b.wallTime, a.totalHeapSize + b.totalHeapSize,
   a.totalHeapSizeExecutable + b.totalHeapSizeExecutable,
   a.totalPhysicalSize + b.totalPhysicalSize, a.usedHeapSize + b.usedHeapSize,
   a.mallocedMemory + b.mallocedMemory, a.peakMallocedMemory + b.peakMallocedMemory,
   a.externallyAllocatedSize + b.externallyAllocatedSize⟩

/-- Modelled from the spec: the stats observable through `getStats` (the
implementation of `Fakeium.getStats` is not among the staged sources).  Spec
§4.1 "Stats": cumulative CPU time, wall time and heap counters drawn from the
embedding engine for the current isolate, reset to zero on dispose; spec §5:
after a forced disposal the aborted run's stats are not merged. -/
structure StatsState where
  observed : FakeiumStats := {}
deriving DecidableEq, Repr

/-- Modelled from the spec: `getStats` reads the currently observable
cumulative counters. -/
def getStats (s : StatsState) : FakeiumStats :=
  s.observed

/-- Modelled from the spec: `dispose` resets the observable stats to zero. -/
def statsAfterDispose (_ : StatsState) : StatsState :=
  {}

/-- Modelled from the spec: a completed run merges the engine's counters for
that evaluation; a run aborted by the memory limit (forced isolate disposal)
merges nothing. -/
def statsAfterRun (s : StatsState) (abortedByMemoryLimit : Bool) (delta : FakeiumStats) :
    StatsState :=
  if abortedByMemoryLimit then s else { observed := addStats s.observed delta }

/-- C9: `getStats` reports cumulative counters (a successful run adds the
engine's counters for that evaluation); after `dispose` every stat reads as
zero; and a run aborted by the memory limit leaves the observed stats exactly
as they were before the run. -/
theorem getStats_lifecycle :
    (∀ s delta, getStats (statsAfterRun s false delta) = addStats (getStats s) delta) ∧
    (∀ s, getStats (statsAfterDispose s) = ({} : FakeiumStats)) ∧
    (({} : FakeiumStats) = ⟨0, 0, 0, 0, 0, 0, 0, 0, 0⟩) ∧
    (∀ s delta, getStats (statsAfterRun s true delta) = getStats s) :=
  ⟨fun _ _ => rfl, fun _ => rfl, rfl, fun _ _ => rfl⟩

/-! ## C7: the accessor path grammar

The claim's grammar, stated independently of the matcher: an identifier
followed by zero or more segments `.identifier`, `["<string>"]`,
`['<string>']` or `[<nonneg-integer>]` (a `<string>` is one or more
characters matchable by the regex `.`, so it excludes line terminators but
may itself contain quotes or brackets). -/

/-- One segment of the accessor grammar. -/
inductive PathSeg where
  | dot (name : List Char)
  | dq (content : List Char)
  | sq (content : List Char)
  | idx (digits : List Char)
deriving DecidableEq, Repr

/-- The characters a segment contributes to the path. -/
def PathSeg.chars : PathSeg → List Char
  | .dot name => '.' :: name
  | .dq content => '[' :: '"' :: (content ++ ['"', ']'])
  | .sq content => '[' :: '\'' :: (content ++ ['\'', ']'])
  | .idx ds => '[' :: (ds ++ [']'])

/-- An identifier token: a letter, underscore or `$`, then alphanumerics,
underscores or `$`. -/
def IsIdentTok (w : List Char) : Prop :=
  ∃ c cs, w = c :: cs ∧ identStart c = true ∧ ∀ d ∈ cs, identChar d = true

/-- Well-formedness of a segment: a nonempty identifier after a dot, nonempty
arbitrary (non-line-terminator) content between quotes, nonempty digits
between brackets. -/
def PathSeg.OK : PathSeg → Prop
  | .dot name => IsIdentTok name
  | .dq content => content ≠ [] ∧ ∀ c ∈ content, dotChar c = true
  | .sq content => content ≠ [] ∧ ∀ c ∈ content, dotChar c = true
  | .idx ds => ds ≠ [] ∧ ∀ c ∈ ds, c.isDigit = true

/-- `l` is a concatenation of well-formed segments. -/
def SegsD (l : List Char) : Prop :=
  ∃ segs : List PathSeg, (∀ s ∈ segs, PathSeg.OK s) ∧ l = (segs.map PathSeg.chars).flatten

/-- The accessor grammar of C7 on a whole path. -/
def PathGrammar (path : String) : Prop :=
  ∃ idTok rest, IsIdentTok idTok ∧ SegsD rest ∧ path.data = idTok ++ rest

theorem SegsD_nil : SegsD [] :=
  ⟨[], by simp, rfl⟩

theorem SegsD_cons_seg {s : PathSeg} {rest : List Char} (hOK : PathSeg.OK s)
    (h : SegsD rest) : SegsD (s.chars ++ rest) := by
  obtain ⟨segs, hall, rfl⟩ := h
  refine ⟨s :: segs, ?_, by simp⟩
  intro t ht
  rcases List.mem_cons.mp ht with rfl | ht
  · exact hOK
  · exact hall t ht

theorem SegsD_head {c : Char} {r : List Char} (h : SegsD (c :: r)) :
    c = '.' ∨ c = '[' := by
  obtain ⟨segs, hOK, heq⟩ := h
  cases segs with
  | nil => simp at heq
  | cons s segs' =>
    cases s with
    | dot name =>
      simp [PathSeg.chars] at heq
      exact Or.inl heq.1
    | dq content =>
      simp [PathSeg.chars] at heq
      exact Or.inr heq.1
    | sq content =>
      simp [PathSeg.chars] at heq
      exact Or.inr heq.1
    | idx ds =>
      simp [PathSeg.chars] at heq
      exact Or.inr heq.1

theorem SegsD_cases {l : List Char} (h : SegsD l) :
    l = [] ∨ ∃ s rest, PathSeg.OK s ∧ SegsD rest ∧ l = s.chars ++ rest := by
  obtain ⟨segs, hall, rfl⟩ := h
  cases segs with
  | nil => exact Or.inl (by simp)
  | cons s segs' =>
    refine Or.inr ⟨s, (segs'.map PathSeg.chars).flatten, hall s (by simp), ?_, by simp⟩
    exact ⟨segs', fun t ht => hall t (by simp [ht]), rfl⟩

/-- Meaning of `identRest`: identifier-tail characters then segments. -/
def IdentRestD (l : List Char) : Prop :=
  ∃ w rest, (∀ c ∈ w, identChar c = true) ∧ SegsD rest ∧ l = w ++ rest

/-- Meaning of `dotIdent`: an identifier token then segments. -/
def DotD (l : List Char) : Prop :=
  ∃ name rest, IsIdentTok name ∧ SegsD rest ∧ l = name ++ rest

/-- Meaning of `bracketRest`: the inside of one bracket segment (after the
opening `[`), then segments. -/
def BracketD (l : List Char) : Prop :=
  (∃ content rest, content ≠ [] ∧ (∀ c ∈ content, dotChar c = true) ∧ SegsD rest ∧
    l = '"' :: (content ++ '"' :: ']' :: rest)) ∨
  (∃ content rest, content ≠ [] ∧ (∀ c ∈ content, dotChar c = true) ∧ SegsD rest ∧
    l = '\'' :: (content ++ '\'' :: ']' :: rest)) ∨
  (∃ ds rest, ds ≠ [] ∧ (∀ c ∈ ds, c.isDigit = true) ∧ SegsD rest ∧
    l = ds ++ ']' :: rest)

/-- Meaning of `closeBracket`: a `]` then segments. -/
def CloseD (l : List Char) : Prop :=
  ∃ rest, SegsD rest ∧ l = ']' :: rest

/-- Meaning of `strTail q`: possibly-empty content then `q]` then segments. -/
def StrTailD (q : Char) (l : List Char) : Prop :=
  ∃ w rest, (∀ c ∈ w, dotChar c = true) ∧ SegsD rest ∧ l = w ++ q :: ']' :: rest

/-- Meaning of `strRest q`: nonempty content then `q]` then segments. -/
def StrRestD (q : Char) (l : List Char) : Prop :=
  ∃ w rest, w ≠ [] ∧ (∀ c ∈ w, dotChar c = true) ∧ SegsD rest ∧ l = w ++ q :: ']' :: rest

/-- Meaning of `digitsRest`: possibly-empty digits then `]` then segments. -/
def DigitsD (l : List Char) : Prop :=
  ∃ ds rest, (∀ c ∈ ds, c.isDigit = true) ∧ SegsD rest ∧ l = ds ++ ']' :: rest

/-- The eight matcher-function characterizations at one input. -/
def ParserOK (l : List Char) : Prop :=
  (segTail l = true ↔ SegsD l) ∧
  (identRest l = true ↔ IdentRestD l) ∧
  (dotIdent l = true ↔ DotD l) ∧
  (bracketRest l = true ↔ BracketD l) ∧
  (closeBracket l = true ↔ CloseD l) ∧
  (∀ q, strTail q l = true ↔ StrTailD q l) ∧
  (∀ q, strRest q l = true ↔ StrRestD q l) ∧
  (digitsRest l = true ↔ DigitsD l)

theorem parserOK_nil : ParserOK [] := by
  refine ⟨iff_of_true rfl SegsD_nil,
    iff_of_true rfl ⟨[], [], by simp, SegsD_nil, rfl⟩,
    iff_of_false (by simp [dotIdent]) ?_,
    iff_of_false (by simp [bracketRest]) ?_,
    iff_of_false (by simp [closeBracket]) ?_,
    fun q => iff_of_false (by simp [strTail]) ?_,
    fun q => iff_of_false (by simp [strRest]) ?_,
    iff_of_false (by simp [digitsRest]) ?_⟩
  · rintro ⟨name, rest, ⟨nc, ncs, rfl, -, -⟩, -, heq⟩
    simp at heq
  · rintro (⟨content, rest, hne, -, -, heq⟩ | ⟨content, rest, hne, -, -, heq⟩ |
      ⟨ds, rest, hne, -, -, heq⟩) <;> simp at heq
  · rintro ⟨rest, -, heq⟩
    simp at heq
  · rintro ⟨w, rest, -, -, heq⟩
    simp at heq
  · rintro ⟨w, rest, hne, -, -, heq⟩
    simp at heq
  · rintro ⟨ds, rest, -, -, heq⟩
    simp at heq

theorem segTail_step {c : Char} {rest : List Char}
    (ihDot : dotIdent rest = true ↔ DotD rest)
    (ihBr : bracketRest rest = true ↔ BracketD rest) :
    segTail (c :: rest) = true ↔ SegsD (c :: rest) := by
  constructor
  · intro h
    simp only [segTail] at h
    by_cases hdot : c = '.'
    · rw [if_pos hdot] at h
      obtain ⟨name, r2, htok, hsegs, heq⟩ := ihDot.mp h
      subst hdot heq
      have := SegsD_cons_seg (s := .dot name) htok hsegs
      simpa [PathSeg.chars] using this
    · rw [if_neg hdot] at h
      by_cases hbr : c = '['
      · rw [if_pos hbr] at h
        subst hbr
        rcases ihBr.mp h with ⟨content, r2, hne, hdc, hsegs, heq⟩ |
          ⟨content, r2, hne, hdc, hsegs, heq⟩ | ⟨ds, r2, hne, hdg, hsegs, heq⟩
        · subst heq
          have := SegsD_cons_seg (s := .dq content) ⟨hne, hdc⟩ hsegs
          simpa [PathSeg.chars] using this
        · subst heq
          have := SegsD_cons_seg (s := .sq content) ⟨hne, hdc⟩ hsegs
          simpa [PathSeg.chars] using this
        · subst heq
          have := SegsD_cons_seg (s := .idx ds) ⟨hne, hdg⟩ hsegs
          simpa [PathSeg.chars] using this
      · rw [if_neg hbr] at h
        cases h
  · intro h
    rcases SegsD_cases h with heq | ⟨s, r2, hOK, hsegs, heq⟩
    · simp at heq
    · cases s with
      | dot name =>
        simp only [PathSeg.chars, List.cons_append] at heq
        obtain ⟨rfl, hrest⟩ := List.cons.inj heq
        simp only [segTail, if_pos rfl]
        exact ihDot.mpr ⟨name, r2, hOK, hsegs, hrest⟩
      | dq content =>
        simp only [PathSeg.chars, List.cons_append, List.append_assoc] at heq
        obtain ⟨rfl, hrest⟩ := List.cons.inj heq
        rw [show segTail ('[' :: rest) = bracketRest rest from by simp [segTail]]
        refine ihBr.mpr (Or.inl ⟨content, r2, hOK.1, hOK.2, hsegs, ?_⟩)
        simpa using hrest
      | sq content =>
        simp only [PathSeg.chars, List.cons_append, List.append_assoc] at heq
        obtain ⟨rfl, hrest⟩ := List.cons.inj heq
        rw [show segTail ('[' :: rest) = bracketRest rest from by simp [segTail]]
        refine ihBr.mpr (Or.inr (Or.inl ⟨content, r2, hOK.1, hOK.2, hsegs, ?_⟩))
        simpa using hrest
      | idx ds =>
        simp only [PathSeg.chars, List.cons_append, List.append_assoc] at heq
        obtain ⟨rfl, hrest⟩ := List.cons.inj heq
        rw [show segTail ('[' :: rest) = bracketRest rest from by simp [segTail]]
        refine ihBr.mpr (Or.inr (Or.inr ⟨ds, r2, hOK.1, hOK.2, hsegs, ?_⟩))
        simpa using hrest

theorem identRest_step {c : Char} {rest : List Char}
    (ihIdent : identRest rest = true ↔ IdentRestD rest)
    (hSeg : segTail (c :: rest) = true ↔ SegsD (c :: rest)) :
    identRest (c :: rest) = true ↔ IdentRestD (c :: rest) := by
  by_cases hic : identChar c = true
  · rw [show identRest (c :: rest) = identRest rest from by simp [identRest, hic]]
    constructor
    · intro h
      obtain ⟨w, r2, hw, hsegs, heq⟩ := ihIdent.mp h
      refine ⟨c :: w, r2, ?_, hsegs, by simp [heq]⟩
      intro d hd
      rcases List.mem_cons.mp hd with rfl | hd
      · exact hic
      · exact hw d hd
    · rintro ⟨w, r2, hw, hsegs, heq⟩
      cases w with
      | nil =>
        simp only [List.nil_append] at heq
        rcases SegsD_head (show SegsD (c :: rest) from heq ▸ hsegs) with rfl | rfl
        · exact absurd hic (by decide)
        · exact absurd hic (by decide)
      | cons a w' =>
        simp only [List.cons_append] at heq
        obtain ⟨rfl, hrest⟩ := List.cons.inj heq
        exact ihIdent.mpr ⟨w', r2, fun d hd => hw d (by simp [hd]), hsegs, hrest⟩
  · rw [show identRest (c :: rest) = segTail (c :: rest) from by
      simp [identRest, segTail, hic], hSeg]
    constructor
    · intro h
      exact ⟨[], c :: rest, by simp, h, rfl⟩
    · rintro ⟨w, r2, hw, hsegs, heq⟩
      cases w with
      | nil =>
        simp only [List.nil_append] at heq
        rw [heq]
        exact hsegs
      | cons a w' =>
        simp only [List.cons_append] at heq
        obtain ⟨rfl, -⟩ := List.cons.inj heq
        exact absurd (hw _ (List.mem_cons_self _ _)) hic

theorem dotIdent_step {c : Char} {rest : List Char}
    (ihIdent : identRest rest = true ↔ IdentRestD rest) :
    dotIdent (c :: rest) = true ↔ DotD (c :: rest) := by
  simp only [dotIdent, Bool.and_eq_true]
  constructor
  · rintro ⟨hstart, h⟩
    obtain ⟨w, r2, hw, hsegs, heq⟩ := ihIdent.mp h
    exact ⟨c :: w, r2, ⟨c, w, rfl, hstart, hw⟩, hsegs, by simp [heq]⟩
  · rintro ⟨name, r2, ⟨nc, ncs, rfl, hstart, htail⟩, hsegs, heq⟩
    simp only [List.cons_append] at heq
    obtain ⟨rfl, hrest⟩ := List.cons.inj heq
    exact ⟨hstart, ihIdent.mpr ⟨ncs, r2, htail, hsegs, hrest⟩⟩

theorem bracketRest_step {c : Char} {rest : List Char}
    (ihStrR : ∀ q, strRest q rest = true ↔ StrRestD q rest)
    (ihDig : digitsRest rest = true ↔ DigitsD rest) :
    bracketRest (c :: rest) = true ↔ BracketD (c :: rest) := by
  by_cases hdq : c = '"'
  · subst hdq
    rw [show bracketRest ('"' :: rest) = strRest '"' rest from by simp [bracketRest],
      ihStrR '"']
    constructor
    · rintro ⟨w, r2, hne, hdc, hsegs, heq⟩
      exact Or.inl ⟨w, r2, hne, hdc, hsegs, by simp [heq]⟩
    · rintro (⟨content, r2, hne, hdc, hsegs, heq⟩ | ⟨content, r2, hne, hdc, hsegs, heq⟩ |
        ⟨ds, r2, hne, hdg, hsegs, heq⟩)
      · obtain ⟨-, hrest⟩ := List.cons.inj heq
        exact ⟨content, r2, hne, hdc, hsegs, hrest⟩
      · exact absurd (List.cons.inj heq).1 (by decide)
      · cases ds with
        | nil => exact absurd rfl hne
        | cons d ds' =>
          simp only [List.cons_append] at heq
          obtain ⟨rfl, -⟩ := List.cons.inj heq
          exact absurd (hdg _ (List.mem_cons_self _ _)) (by decide)
  · by_cases hsq : c = '\''
    · subst hsq
      rw [show bracketRest ('\'' :: rest) = strRest '\'' rest from by simp [bracketRest],
        ihStrR '\'']
      constructor
      · rintro ⟨w, r2, hne, hdc, hsegs, heq⟩
        exact Or.inr (Or.inl ⟨w, r2, hne, hdc, hsegs, by simp [heq]⟩)
      · rintro (⟨content, r2, hne, hdc, hsegs, heq⟩ | ⟨content, r2, hne, hdc, hsegs, heq⟩ |
          ⟨ds, r2, hne, hdg, hsegs, heq⟩)
        · exact absurd (List.cons.inj heq).1 (by decide)
        · obtain ⟨-, hrest⟩ := List.cons.inj heq
          exact ⟨content, r2, hne, hdc, hsegs, hrest⟩
        · cases ds with
          | nil => exact absurd rfl hne
          | cons d ds' =>
            simp only [List.cons_append] at heq
            obtain ⟨rfl, -⟩ := List.cons.inj heq
            exact absurd (hdg _ (List.mem_cons_self _ _)) (by decide)
    · rw [show bracketRest (c :: rest) = (c.isDigit && digitsRest rest) from by
        simp [bracketRest, hdq, hsq]]
      simp only [Bool.and_eq_true]
      constructor
      · rintro ⟨hcd, h⟩
        obtain ⟨ds, r2, hdg, hsegs, heq⟩ := ihDig.mp h
        refine Or.inr (Or.inr ⟨c :: ds, r2, by simp, ?_, hsegs, by simp [heq]⟩)
        intro d hd
        rcases List.mem_cons.mp hd with rfl | hd
        · exact hcd
        · exact hdg d hd
      · rintro (⟨content, r2, hne, hdc, hsegs, heq⟩ | ⟨content, r2, hne, hdc, hsegs, heq⟩ |
          ⟨ds, r2, hne, hdg, hsegs, heq⟩)
        · exact absurd (List.cons.inj heq).1 hdq
        · exact absurd (List.cons.inj heq).1 hsq
        · cases ds with
          | nil => exact absurd rfl hne
          | cons d ds' =>
            simp only [List.cons_append] at heq
            obtain ⟨rfl, hrest⟩ := List.cons.inj heq
            exact ⟨hdg _ (List.mem_cons_self _ _),
              ihDig.mpr ⟨ds', r2, fun x hx => hdg x (by simp [hx]), hsegs, hrest⟩⟩

theorem closeBracket_step {c : Char} {rest : List Char}
    (ihSeg : segTail rest = true ↔ SegsD rest) :
    closeBracket (c :: rest) = true ↔ CloseD (c :: rest) := by
  simp only [closeBracket, Bool.and_eq_true, decide_eq_true_eq]
  constructor
  · rintro ⟨rfl, h⟩
    exact ⟨rest, ihSeg.mp h, rfl⟩
  · rintro ⟨r2, hsegs, heq⟩
    obtain ⟨rfl, rfl⟩ := List.cons.inj heq
    exact ⟨rfl, ihSeg.mpr hsegs⟩

theorem strTail_step {q c : Char} {rest : List Char}
    (ihClose : closeBracket rest = true ↔ CloseD rest)
    (ihStrT : strTail q rest = true ↔ StrTailD q rest) :
    strTail q (c :: rest) = true ↔ StrTailD q (c :: rest) := by
  simp only [strTail, Bool.or_eq_true, Bool.and_eq_true, decide_eq_true_eq]
  constructor
  · rintro (⟨rfl, h⟩ | ⟨hdc, h⟩)
    · obtain ⟨r2, hsegs, heq⟩ := ihClose.mp h
      exact ⟨[], r2, by simp, hsegs, by simp [heq]⟩
    · obtain ⟨w, r2, hw, hsegs, heq⟩ := ihStrT.mp h
      refine ⟨c :: w, r2, ?_, hsegs, by simp [heq]⟩
      intro d hd
      rcases List.mem_cons.mp hd with rfl | hd
      · exact hdc
      · exact hw d hd
  · rintro ⟨w, r2, hw, hsegs, heq⟩
    cases w with
    | nil =>
      simp only [List.nil_append] at heq
      obtain ⟨rfl, hrest⟩ := List.cons.inj heq
      exact Or.inl ⟨rfl, ihClose.mpr ⟨r2, hsegs, hrest⟩⟩
    | cons a w' =>
      simp only [List.cons_append] at heq
      obtain ⟨rfl, hrest⟩ := List.cons.inj heq
      exact Or.inr ⟨hw _ (List.mem_cons_self _ _),
        ihStrT.mpr ⟨w', r2, fun d hd => hw d (by simp [hd]), hsegs, hrest⟩⟩

theorem strRest_step {q c : Char} {rest : List Char}
    (ihStrT : strTail q rest = true ↔ StrTailD q rest) :
    strRest q (c :: rest) = true ↔ StrRestD q (c :: rest) := by
  simp only [strRest, Bool.and_eq_true]
  constructor
  · rintro ⟨hdc, h⟩
    obtain ⟨w, r2, hw, hsegs, heq⟩ := ihStrT.mp h
    refine ⟨c :: w, r2, by simp, ?_, hsegs, by simp [heq]⟩
    intro d hd
    rcases List.mem_cons.mp hd with rfl | hd
    · exact hdc
    · exact hw d hd
  · rintro ⟨w, r2, hne, hw, hsegs, heq⟩
    cases w with
    | nil => exact absurd rfl hne
    | cons a w' =>
      simp only [List.cons_append] at heq
      obtain ⟨rfl, hrest⟩ := List.cons.inj heq
      exact ⟨hw _ (List.mem_cons_self _ _),
        ihStrT.mpr ⟨w', r2, fun d hd => hw d (by simp [hd]), hsegs, hrest⟩⟩

theorem digitsRest_step {c : Char} {rest : List Char}
    (ihSeg : segTail rest = true ↔ SegsD rest)
    (ihDig : digitsRest rest = true ↔ DigitsD rest) :
    digitsRest (c :: rest) = true ↔ DigitsD (c :: rest) := by
  simp only [digitsRest, Bool.or_eq_true, Bool.and_eq_true, decide_eq_true_eq]
  constructor
  · rintro (⟨rfl, h⟩ | ⟨hcd, h⟩)
    · exact ⟨[], rest, by simp, ihSeg.mp h, rfl⟩
    · obtain ⟨ds, r2, hdg, hsegs, heq⟩ := ihDig.mp h
      refine ⟨c :: ds, r2, ?_, hsegs, by simp [heq]⟩
      intro d hd
      rcases List.mem_cons.mp hd with rfl | hd
      · exact hcd
      · exact hdg d hd
  · rintro ⟨ds, r2, hdg, hsegs, heq⟩
    cases ds with
    | nil =>
      simp only [List.nil_append] at heq
      obtain ⟨rfl, hrest⟩ := List.cons.inj heq
      refine Or.inl ⟨rfl, ihSeg.mpr ?_⟩
      rw [hrest]
      exact hsegs
    | cons d ds' =>
      simp only [List.cons_append] at heq
      obtain ⟨rfl, hrest⟩ := List.cons.inj heq
      exact Or.inr ⟨hdg _ (List.mem_cons_self _ _),
        ihDig.mpr ⟨ds', r2, fun x hx => hdg x (by simp [hx]), hsegs, hrest⟩⟩

/-- Every prefix function of the `PATH_PATTERN` matcher recognises exactly
its grammar meaning. -/
theorem parserOK_all (l : List Char) : ParserOK l := by
  suffices h : ∀ n (l : List Char), l.length ≤ n → ParserOK l from h l.length l le_rfl
  intro n
  induction n with
  | zero =>
    intro l hl
    rw [List.length_eq_zero.mp (Nat.le_zero.mp hl)]
    exact parserOK_nil
  | succ n ih =>
    intro l hl
    cases l with
    | nil => exact parserOK_nil
    | cons c rest =>
      have hrest : rest.length ≤ n := by
        simp only [List.length_cons] at hl
        omega
      obtain ⟨ihSeg, ihIdent, ihDot, ihBr, ihClose, ihStrT, ihStrR, ihDig⟩ := ih rest hrest
      have hSeg := segTail_step (c := c) ihDot ihBr
      exact ⟨hSeg, identRest_step ihIdent hSeg, dotIdent_step ihIdent,
        bracketRest_step ihStrR ihDig, closeBracket_step ihSeg,
        fun q => strTail_step ihClose (ihStrT q),
        fun q => strRest_step (ihStrT q), digitsRest_step ihSeg ihDig⟩

theorem pathPatternChars_grammar (l : List Char) :
    pathPatternChars l = true ↔
      ∃ idTok rest, IsIdentTok idTok ∧ SegsD rest ∧ l = idTok ++ rest := by
  cases l with
  | nil =>
    constructor
    · intro h
      cases h
    · rintro ⟨idTok, rest, ⟨c, cs, rfl, -, -⟩, -, heq⟩
      simp at heq
  | cons c rest =>
    simp only [pathPatternChars, Bool.and_eq_true]
    have hIdent := (parserOK_all rest).2.1
    constructor
    · rintro ⟨hstart, h⟩
      obtain ⟨w, r2, hw, hsegs, heq⟩ := hIdent.mp h
      exact ⟨c :: w, r2, ⟨c, w, rfl, hstart, hw⟩, hsegs, by simp [heq]⟩
    · rintro ⟨idTok, r2, ⟨nc, ncs, rfl, hstart, htail⟩, hsegs, heq⟩
      simp only [List.cons_append] at heq
      obtain ⟨rfl, hrest⟩ := List.cons.inj heq
      exact ⟨hstart, hIdent.mpr ⟨ncs, r2, htail, hsegs, hrest⟩⟩

theorem pathPatternTest_grammar (path : String) :
    pathPatternTest path = true ↔ PathGrammar path :=
  pathPatternChars_grammar path.data

/-- C7: path validation is exactly the accessor grammar: `validatePath`
raises `InvalidPath` iff the path is outside the grammar and succeeds iff it
is inside it; and a `hook` call reports `InvalidPath` precisely when its path
- or, for a `Reference` value, the reference's target path - is outside the
grammar. -/
theorem validatePath_grammar (path : String) :
    (validatePath path = .error .invalidPath ↔ ¬ PathGrammar path) ∧
    (validatePath path = .ok () ↔ PathGrammar path) ∧
    (∀ hooks value isWritable,
      (hookCall hooks path value isWritable).1 = some .invalidPath ↔
        (¬ PathGrammar path ∨
          ∃ target, value = .reference target ∧ ¬ PathGrammar target)) := by
  have hpg := pathPatternTest_grammar path
  by_cases hp : pathPatternTest path = true
  · have hPG : PathGrammar path := hpg.mp hp
    refine ⟨by simp [validatePath, hp, hPG], by simp [validatePath, hp, hPG], ?_⟩
    intro hooks value isWritable
    cases value with
    | reference target =>
      have hpgT := pathPatternTest_grammar target
      by_cases ht : pathPatternTest target = true
      · simp [hookCall, hp, ht, hPG, hpgT.mp ht]
      · simp [hookCall, hp, ht, hPG, ← hpgT]
    | func => simp [hookCall, hp, hPG]
    | val v =>
      by_cases hc : cloneable v = true
      · simp [hookCall, hp, hc, hPG]
      · simp [hookCall, hp, hc, hPG]
  · have hPG : ¬ PathGrammar path := fun h => hp (hpg.mpr h)
    refine ⟨by simp [validatePath, hp, hPG], by simp [validatePath, hp, hPG], ?_⟩
    intro hooks value isWritable
    simp [hookCall, hp, hPG]

end Fakeium
